import Mathlib

/-!
Shallow embedding of the scache in-process cache engine.

The repository contains three parallel cache-engine implementations and two
families of eviction policies; the embedding keeps them apart:

* `SCache.ScacheSharded` — the sharded `MemoryCache` (package `github.com/scache`,
  file `unnamed/part_018`), whose shards use the `OnAdd`/`OnAccess`/`OnRemove`
  policy family: `LRUPolicy` (part_014, third section), `LFUPolicy`
  (`policies/lfu/lfu.go`) and `FIFOPolicy` (part_014, first section).
* `SCache.ScacheLocal` — the single-map `MemoryCache` of `cache/cache.go`
  (module `scache`), which uses the `Access`/`Set`/`Delete`/`Evict` policy
  family `lruPolicy` (`policies/lru/lru.go`).
* `SCache.ScacheIO` — the `StorageEngine` of `storage/engine.go`
  (module `github.com/scache-io/scache`), which uses the same `lruPolicy`
  family (part_014, second section, line-identical logic).

Go `map[string]T` values are modelled as association lists with unique keys,
Go `time.Time` and `time.Duration` as `Int` (a zero `time.Time` becomes
`none` in an `Option Int`), and Go `int` as `Int`.  Each operation that reads
the wall clock in Go takes the current time `now` as an explicit argument.
-/

set_option autoImplicit false

namespace SCache

abbrev Key := String

/-- Association-list lookup, modelling Go `m[k]` on a `map[string]T`. -/
def lookupKey {α : Type} : List (Key × α) → Key → Option α
  | [], _ => none
  | (k', v) :: rest, k => if k' = k then some v else lookupKey rest k

/-- Modelling Go's `_, ok := m[k]` membership test. -/
def containsKey {α : Type} (l : List (Key × α)) (k : Key) : Bool :=
  (lookupKey l k).isSome

/-- Association-list update, modelling Go `m[k] = v` (replace or append). -/
def insertKey {α : Type} : List (Key × α) → Key → α → List (Key × α)
  | [], k, v => [(k, v)]
  | (k', v') :: rest, k, v =>
      if k' = k then (k, v) :: rest else (k', v') :: insertKey rest k v

/-- Association-list removal, modelling Go `delete(m, k)`. -/
def eraseKey {α : Type} : List (Key × α) → Key → List (Key × α)
  | [], _ => []
  | (k', v') :: rest, k => if k' = k then rest else (k', v') :: eraseKey rest k

/-- The key set of an association list. -/
def keysOf {α : Type} (l : List (Key × α)) : List Key :=
  l.map Prod.fst

/-! ## `LRUPolicy` — the `OnAdd`/`OnAccess`/`OnRemove` LRU policy

From `unnamed/part_014` (third section, package `lru`, module
`github.com/scache`): a doubly linked list of keys (front = most recently
used) plus a key-to-node map.  The map is exactly the membership structure of
the list, so the state is modelled by the key list alone. -/

structure LRUPolicy where
  capacity : Int
  /-- The linked list, front first (front = most recently used). -/
  order : List Key
deriving Repr, DecidableEq

/-- `NewLRUPolicy` of this family stores the capacity unchanged. -/
def LRUPolicy.NewLRUPolicy (capacity : Int) : LRUPolicy :=
  { capacity := capacity, order := [] }

/-- Go `list.MoveToFront` on the element holding `k` (keys are unique). -/
def LRUPolicy.moveToFront (k : Key) (l : List Key) : List Key :=
  k :: l.erase k

/-- `removeOldest`: remove the back of the list if it is non-empty. -/
def LRUPolicy.removeOldest (s : LRUPolicy) : LRUPolicy :=
  { s with order := s.order.dropLast }

/-- `OnAccess`: move a tracked key to the front; untracked keys are ignored. -/
def LRUPolicy.OnAccess (k : Key) (s : LRUPolicy) : LRUPolicy :=
  if k ∈ s.order then { s with order := LRUPolicy.moveToFront k s.order } else s

/-- `OnAdd`: move to front if tracked, otherwise push front and trim if the
length now exceeds the capacity. -/
def LRUPolicy.OnAdd (k : Key) (s : LRUPolicy) : LRUPolicy :=
  if k ∈ s.order then { s with order := LRUPolicy.moveToFront k s.order }
  else
    let s' := { s with order := k :: s.order }
    if (s'.order.length : Int) > s'.capacity then s'.removeOldest else s'

/-- `OnRemove`: drop a tracked key; untracked keys are ignored. -/
def LRUPolicy.OnRemove (k : Key) (s : LRUPolicy) : LRUPolicy :=
  if k ∈ s.order then { s with order := s.order.erase k } else s

/-- `ShouldEvict`: when the list length has reached the capacity and the list
is non-empty, name the back (least recently used) key without mutating. -/
def LRUPolicy.ShouldEvict (s : LRUPolicy) : Option Key :=
  if (s.order.length : Int) ≥ s.capacity then s.order.getLast? else none

/-- The `for l.list.Len() > l.capacity { l.removeOldest() }` loop of
`SetMaxSize`, with explicit fuel (`fuel` is instantiated with the list length,
which bounds the iterations whenever the capacity is non-negative; for a
negative capacity the Go loop never terminates once the list is empty, a
state this total model simply returns). -/
def LRUPolicy.SetMaxSizeLoop : Nat → LRUPolicy → LRUPolicy
  | 0, s => s
  | fuel + 1, s =>
      if (s.order.length : Int) > s.capacity then
        if s.order = [] then s
        else LRUPolicy.SetMaxSizeLoop fuel s.removeOldest
      else s

/-- `SetMaxSize`: install the new capacity, then evict down to it. -/
def LRUPolicy.SetMaxSize (n : Int) (s : LRUPolicy) : LRUPolicy :=
  LRUPolicy.SetMaxSizeLoop s.order.length { s with capacity := n }

/-- `Clear`: drop all tracked state (the capacity is kept). -/
def LRUPolicy.Clear (s : LRUPolicy) : LRUPolicy :=
  { s with order := [] }

/-- `Len`: the number of tracked keys. -/
def LRUPolicy.Len (s : LRUPolicy) : Nat :=
  s.order.length

/-- `Contains`: whether the key is tracked. -/
def LRUPolicy.Contains (k : Key) (s : LRUPolicy) : Bool :=
  decide (k ∈ s.order)

/-! ## `lruPolicy` — the `Access`/`Set`/`Delete`/`Evict` LRU policy

From `policies/lru/lru.go` (module `scache`) and `unnamed/part_014` (second
section, module `github.com/scache-io/scache`); the two files implement the
same logic.  Unlike `LRUPolicy`, its constructor substitutes a default
capacity (`constants.DefaultLRUCapacity = 100`) for non-positive arguments,
and `Access` on an untracked key inserts it (possibly evicting). -/

structure lruPolicy where
  capacity : Int
  /-- The linked list, front first (front = most recently used). -/
  order : List Key
deriving Repr, DecidableEq

/-- `NewLRUPolicy` of this family: non-positive capacities become the default
capacity 100. -/
def lruPolicy.NewLRUPolicy (capacity : Int) : lruPolicy :=
  { capacity := if capacity ≤ 0 then 100 else capacity, order := [] }

/-- `evictInternal`: remove the back of the list and report the removed key,
or report `""` when the list is empty. -/
def lruPolicy.evictInternal (s : lruPolicy) : lruPolicy × Key :=
  if s.order = [] then (s, "")
  else
    match s.order.getLast? with
    | some k => ({ s with order := s.order.dropLast }, k)
    | none => (s, "")

/-- `Access`: move a tracked key to the front; an untracked key is pushed to
the front, evicting internally if the capacity is now exceeded. -/
def lruPolicy.Access (k : Key) (s : lruPolicy) : lruPolicy :=
  if k ∈ s.order then { s with order := k :: s.order.erase k }
  else
    let s' := { s with order := k :: s.order }
    if (s'.order.length : Int) > s'.capacity then s'.evictInternal.1 else s'

/-- `Set` delegates to `Access`. -/
def lruPolicy.Set (k : Key) (s : lruPolicy) : lruPolicy :=
  lruPolicy.Access k s

/-- `Delete`: drop a tracked key; untracked keys are ignored. -/
def lruPolicy.Delete (k : Key) (s : lruPolicy) : lruPolicy :=
  if k ∈ s.order then { s with order := s.order.erase k } else s

/-- `Evict`: remove and return the least recently used key (`""` if empty). -/
def lruPolicy.Evict (s : lruPolicy) : lruPolicy × Key :=
  s.evictInternal

/-- `Clear`: drop all tracked state. -/
def lruPolicy.Clear (s : lruPolicy) : lruPolicy :=
  { s with order := [] }

/-- `Contains`: whether the key is tracked. -/
def lruPolicy.Contains (k : Key) (s : lruPolicy) : Bool :=
  decide (k ∈ s.order)

/-- `Size`: the number of tracked keys. -/
def lruPolicy.Size (s : lruPolicy) : Nat :=
  s.order.length

/-! ## `FIFOPolicy`

From `unnamed/part_014` (first section, package `fifo`): a queue of keys in
insertion order plus an index map `items : key → position`.  The index map is
modelled explicitly because the code lets it go stale: `removeOldest` shifts
the queue without updating the remaining indices.  `OnRemove` with a stale
index `i ≥ len(queue)` panics in Go (`queue[i+1:]` is out of range); the
model returns `none` for that case. -/

structure FIFOPolicy where
  capacity : Int
  queue : List Key
  items : List (Key × Nat)
deriving Repr, DecidableEq

/-- `NewFIFOPolicy` stores the capacity unchanged, with empty queue and map. -/
def FIFOPolicy.NewFIFOPolicy (capacity : Int) : FIFOPolicy :=
  { capacity := capacity, queue := [], items := [] }

/-- `OnAccess` is a no-op: FIFO ignores accesses. -/
def FIFOPolicy.OnAccess (_k : Key) (s : FIFOPolicy) : FIFOPolicy :=
  s

/-- `removeOldest`: pop the queue front and delete its map entry (the
remaining stored indices are not updated, as in the source). -/
def FIFOPolicy.removeOldest (s : FIFOPolicy) : FIFOPolicy :=
  match s.queue with
  | [] => s
  | oldest :: rest => { s with queue := rest, items := eraseKey s.items oldest }

/-- `OnAdd`: append an untracked key (recording its index) and trim if the
queue now exceeds the capacity; tracked keys are ignored. -/
def FIFOPolicy.OnAdd (k : Key) (s : FIFOPolicy) : FIFOPolicy :=
  if containsKey s.items k then s
  else
    let queue' := s.queue ++ [k]
    let s' := { s with queue := queue', items := insertKey s.items k (queue'.length - 1) }
    if (s'.queue.length : Int) > s'.capacity then s'.removeOldest else s'

/-- The `for i := index; i < len(queue); i++ { items[queue[i]] = i }`
reindexing loop of `OnRemove`, walking the suffix of the post-removal queue. -/
def FIFOPolicy.reindexAux : List (Key × Nat) → List Key → Nat → List (Key × Nat)
  | its, [], _ => its
  | its, k :: rest, idx => FIFOPolicy.reindexAux (insertKey its k idx) rest (idx + 1)

/-- `OnRemove`: splice the stored index out of the queue, reindex the suffix
and delete the map entry.  `none` models the Go panic when the stored index
is stale (`index ≥ len(queue)` makes `queue[index+1:]` out of range). -/
def FIFOPolicy.OnRemove (k : Key) (s : FIFOPolicy) : Option FIFOPolicy :=
  match lookupKey s.items k with
  | none => some s
  | some index =>
      if index < s.queue.length then
        let queue' := s.queue.take index ++ s.queue.drop (index + 1)
        let items' := FIFOPolicy.reindexAux s.items (queue'.drop index) index
        some { s with queue := queue', items := eraseKey items' k }
      else none

/-- `ShouldEvict`: name the queue front when the queue has reached the
capacity and is non-empty, without mutating. -/
def FIFOPolicy.ShouldEvict (s : FIFOPolicy) : Option Key :=
  if (s.queue.length : Int) ≥ s.capacity ∧ s.queue ≠ [] then s.queue.head? else none

/-- The `for len(f.queue) > f.capacity { f.removeOldest() }` loop of
`SetMaxSize`, with explicit fuel (see `LRUPolicy.SetMaxSizeLoop` for the
negative-capacity caveat). -/
def FIFOPolicy.SetMaxSizeLoop : Nat → FIFOPolicy → FIFOPolicy
  | 0, s => s
  | fuel + 1, s =>
      if (s.queue.length : Int) > s.capacity then
        if s.queue = [] then s
        else FIFOPolicy.SetMaxSizeLoop fuel s.removeOldest
      else s

/-- `SetMaxSize`: install the new capacity, then evict down to it. -/
def FIFOPolicy.SetMaxSize (n : Int) (s : FIFOPolicy) : FIFOPolicy :=
  FIFOPolicy.SetMaxSizeLoop s.queue.length { s with capacity := n }

/-- `Clear`: drop all tracked state. -/
def FIFOPolicy.Clear (s : FIFOPolicy) : FIFOPolicy :=
  { s with queue := [], items := [] }

/-- `Len`: the queue length. -/
def FIFOPolicy.Len (s : FIFOPolicy) : Nat :=
  s.queue.length

/-- `Contains`: whether the key is in the index map. -/
def FIFOPolicy.Contains (k : Key) (s : FIFOPolicy) : Bool :=
  containsKey s.items k

/-! ## `LFUPolicy`

From `policies/lfu/lfu.go`: a binary min-heap of `(key, frequency)` pairs
ordered by frequency, manipulated through Go's `container/heap`, plus an
`items` map from key to heap index.  The map always stores each node's
current heap position (`Swap`, `Push` and `Pop` maintain the `index` field),
so the state is modelled by the heap array alone and the map's answer for a
key is recovered as the key's position in the array.  The sift loops of
`container/heap` carry explicit fuel; the fuel passed at every call site
bounds each loop's iteration count, because `up` strictly decreases the index
and `down` strictly increases it below `n`. -/

/-- One heap node: the key and its access frequency. -/
abbrev LFUNode := Key × Int

/-- `h.Less i j` of the `lfuHeap`: compare frequencies.  Out-of-range indices
never occur at call sites; the model answers `false` for them. -/
def lfuLess (l : List LFUNode) (i j : Nat) : Bool :=
  match l.get? i, l.get? j with
  | some a, some b => a.2 < b.2
  | _, _ => false

/-- `h.Swap i j` of the `lfuHeap` (also reassigning the stored indices, which
the positional model represents implicitly). -/
def lfuSwap (l : List LFUNode) (i j : Nat) : List LFUNode :=
  match l.get? i, l.get? j with
  | some a, some b => (l.set i b).set j a
  | _, _ => l

/-- `container/heap`'s `up` loop: bubble index `j` towards the root. -/
def heapUp : Nat → List LFUNode → Nat → List LFUNode
  | 0, l, _ => l
  | fuel + 1, l, j =>
      if j = 0 then l
      else
        let i := (j - 1) / 2
        if lfuLess l j i then heapUp fuel (lfuSwap l i j) i else l

/-- `container/heap`'s `down` loop: sink index `i` below bound `n`, returning
the final list and the final index. -/
def heapDown : Nat → List LFUNode → Nat → Nat → List LFUNode × Nat
  | 0, l, i, _ => (l, i)
  | fuel + 1, l, i, n =>
      let j1 := 2 * i + 1
      if j1 < n then
        let j := if j1 + 1 < n ∧ lfuLess l (j1 + 1) j1 then j1 + 1 else j1
        if lfuLess l j i then heapDown fuel (lfuSwap l i j) j n else (l, i)
      else (l, i)

/-- `heap.Push`: append the node, then sift it up. -/
def heapPush (l : List LFUNode) (x : LFUNode) : List LFUNode :=
  heapUp (l.length + 1) (l ++ [x]) l.length

/-- `heap.Pop`: swap the root to the back, sift the new root down within the
shortened bound, then remove and return the back node. -/
def heapPop (l : List LFUNode) : List LFUNode × Option LFUNode :=
  let n := l.length - 1
  let l₁ := lfuSwap l 0 n
  let l₂ := (heapDown l.length l₁ 0 n).1
  (l₂.dropLast, l₂.getLast?)

/-- `heap.Fix`: sift index `i` down; if it did not move, sift it up. -/
def heapFix (l : List LFUNode) (i : Nat) : List LFUNode :=
  let p := heapDown l.length l i l.length
  if p.2 = i then heapUp l.length p.1 i else p.1

/-- `heap.Remove`: swap index `i` with the back, re-sift, then remove the
back node. -/
def heapRemove (l : List LFUNode) (i : Nat) : List LFUNode :=
  let n := l.length - 1
  if i ≠ n then
    let l₁ := lfuSwap l i n
    let p := heapDown l.length l₁ i n
    let l₂ := if p.2 = i then heapUp l.length p.1 i else p.1
    l₂.dropLast
  else l.dropLast

structure LFUPolicy where
  capacity : Int
  heap : List LFUNode
deriving Repr, DecidableEq

/-- `NewLFUPolicy` stores the capacity unchanged, with an empty heap. -/
def LFUPolicy.NewLFUPolicy (capacity : Int) : LFUPolicy :=
  { capacity := capacity, heap := [] }

/-- Position of a key in the heap array (first occurrence). -/
def findIdxOfKey : List LFUNode → Key → Option Nat
  | [], _ => none
  | node :: rest, k =>
      if node.1 = k then some 0 else (findIdxOfKey rest k).map (· + 1)

/-- The `items` map's answer for a key: its position in the heap array. -/
def LFUPolicy.indexOfKey (s : LFUPolicy) (k : Key) : Option Nat :=
  findIdxOfKey s.heap k

/-- `OnAccess`: increment a tracked key's frequency in place and re-heapify
at its index; untracked keys are ignored. -/
def LFUPolicy.OnAccess (k : Key) (s : LFUPolicy) : LFUPolicy :=
  match s.indexOfKey k with
  | none => s
  | some i =>
      match s.heap.get? i with
      | none => s
      | some node =>
          let heap' := s.heap.set i (node.1, node.2 + 1)
          { s with heap := heapFix heap' i }

/-- `removeLowestFrequency`: pop the heap root if the heap is non-empty. -/
def LFUPolicy.removeLowestFrequency (s : LFUPolicy) : LFUPolicy :=
  if s.heap.length > 0 then { s with heap := (heapPop s.heap).1 } else s

/-- `OnAdd`: push an untracked key with frequency 1, then trim if the heap
now exceeds the capacity; tracked keys are ignored. -/
def LFUPolicy.OnAdd (k : Key) (s : LFUPolicy) : LFUPolicy :=
  if (s.indexOfKey k).isSome then s
  else
    let s' := { s with heap := heapPush s.heap (k, 1) }
    if (s'.heap.length : Int) > s'.capacity then s'.removeLowestFrequency else s'

/-- `OnRemove`: remove a tracked key at its heap index; untracked keys are
ignored. -/
def LFUPolicy.OnRemove (k : Key) (s : LFUPolicy) : LFUPolicy :=
  match s.indexOfKey k with
  | none => s
  | some i => { s with heap := heapRemove s.heap i }

/-- `ShouldEvict`: when the heap has reached the capacity and is non-empty,
name the root (lowest frequency) key without mutating. -/
def LFUPolicy.ShouldEvict (s : LFUPolicy) : Option Key :=
  if (s.heap.length : Int) ≥ s.capacity ∧ s.heap.length > 0 then
    (s.heap.head?).map Prod.fst
  else none

/-- The `for l.heap.Len() > l.capacity { l.removeLowestFrequency() }` loop of
`SetMaxSize`, with explicit fuel (see `LRUPolicy.SetMaxSizeLoop` for the
negative-capacity caveat). -/
def LFUPolicy.SetMaxSizeLoop : Nat → LFUPolicy → LFUPolicy
  | 0, s => s
  | fuel + 1, s =>
      if (s.heap.length : Int) > s.capacity then
        if s.heap = [] then s
        else LFUPolicy.SetMaxSizeLoop fuel s.removeLowestFrequency
      else s

/-- `SetMaxSize`: install the new capacity, then evict down to it. -/
def LFUPolicy.SetMaxSize (n : Int) (s : LFUPolicy) : LFUPolicy :=
  LFUPolicy.SetMaxSizeLoop s.heap.length { s with capacity := n }

/-- `Clear`: drop all tracked state. -/
def LFUPolicy.Clear (s : LFUPolicy) : LFUPolicy :=
  { s with heap := [] }

/-- `Len`: the heap length. -/
def LFUPolicy.Len (s : LFUPolicy) : Nat :=
  s.heap.length

/-- `Contains`: whether the key is tracked. -/
def LFUPolicy.Contains (k : Key) (s : LFUPolicy) : Bool :=
  (s.indexOfKey k).isSome

/-- `GetFrequency`: a tracked key's frequency, 0 for untracked keys. -/
def LFUPolicy.GetFrequency (k : Key) (s : LFUPolicy) : Int :=
  match s.indexOfKey k with
  | none => 0
  | some i => match s.heap.get? i with
    | none => 0
    | some node => node.2

namespace ScacheSharded

/-! ## The sharded `MemoryCache` of `unnamed/part_018`

The model fixes `Shards = 1` and `EvictionPolicy = "lru"` (the engine built
by `NewMemoryCache(WithMaxSize(m), WithShards(1), WithEvictionPolicy("lru"))`,
as in the repository's own eviction test), so the single `cacheShard` is
inlined into the cache state.  `config.Shards` is kept as a field because
`SetWithTTL` divides by it.  The statistics fields modelled are the
`Hits`/`Misses` counters that `recordHit`/`recordMiss`/`resetStats` touch;
the purely diagnostic `LastAccess`/`CreatedAt` timestamps are omitted. -/

/-- `types.CacheItem` of `unnamed/part_011`; `expiresAt = none` models the
zero `time.Time` (never expires). -/
structure CacheItem where
  key : Key
  value : String
  expiresAt : Option Int
  createdAt : Int
  accessCount : Int
  lastAccess : Int
deriving Repr, DecidableEq

/-- `CacheItem.IsExpired`: a non-zero `ExpiresAt` strictly in the past. -/
def CacheItem.IsExpired (item : CacheItem) (now : Int) : Bool :=
  match item.expiresAt with
  | none => false
  | some t => t < now

/-- The `Config` fields the modelled operations read. -/
structure Config where
  maxSize : Int
  shards : Int
  defaultTTL : Int
  enableStatistics : Bool
  enableLazyExpiration : Bool
deriving Repr, DecidableEq

structure MemoryCache where
  /-- The single shard's `items` map. -/
  items : List (Key × CacheItem)
  /-- The single shard's eviction policy (the `lru` default). -/
  policy : LRUPolicy
  config : Config
  hits : Int
  misses : Int
deriving Repr, DecidableEq

/-- `validateConfig`'s `MaxSize` rule: non-positive sizes become
`constants.DefaultMaxSize = 10000`. -/
def validateMaxSize (m : Int) : Int :=
  if m ≤ 0 then 10000 else m

/-- `NewMemoryCache(WithMaxSize(maxSize), WithShards(1),
WithEvictionPolicy("lru"))` over `defaultConfig` (DefaultTTL 0, statistics
off, lazy expiration on): one shard whose policy capacity is
`MaxSize / Shards`. -/
def MemoryCache.NewSingleShard (maxSize : Int) : MemoryCache :=
  let m := validateMaxSize maxSize
  { items := []
    policy := LRUPolicy.NewLRUPolicy (m / 1)
    config := { maxSize := m, shards := 1, defaultTTL := 0,
                enableStatistics := false, enableLazyExpiration := true }
    hits := 0, misses := 0 }

/-- `SetWithTTL`: build the item, evict the policy's candidate whenever the
shard is at its local capacity (`MaxSize / Shards`), deregister an
overwritten key, then store and register the key.  The Go function's `error`
result is always `nil`, modelled by the always-`none` first component. -/
def MemoryCache.SetWithTTL (c : MemoryCache) (key value : String) (ttl now : Int) :
    Option String × MemoryCache :=
  let expiresAt : Option Int := if ttl > 0 then some (now + ttl) else none
  let item : CacheItem :=
    { key := key, value := value, expiresAt := expiresAt,
      createdAt := now, accessCount := 1, lastAccess := now }
  let shardMaxSize := c.config.maxSize / c.config.shards
  let c1 :=
    if (c.items.length : Int) ≥ shardMaxSize then
      match c.policy.ShouldEvict with
      | some evictKey =>
          { c with items := eraseKey c.items evictKey,
                   policy := c.policy.OnRemove evictKey }
      | none => c
    else c
  let c2 :=
    if containsKey c1.items key then { c1 with policy := c1.policy.OnRemove key }
    else c1
  (none, { c2 with items := insertKey c2.items key item,
                   policy := c2.policy.OnAdd key })

/-- `Set`: delegate to `SetWithTTL` with the default TTL (0 under the default
configuration, meaning no expiry). -/
def MemoryCache.Set (c : MemoryCache) (key value : String) (now : Int) :
    Option String × MemoryCache :=
  if c.config.defaultTTL = 0 then c.SetWithTTL key value 0 now
  else c.SetWithTTL key value c.config.defaultTTL now

/-- `recordMiss` (only counts when statistics are enabled). -/
def MemoryCache.recordMiss (c : MemoryCache) : MemoryCache :=
  if c.config.enableStatistics then { c with misses := c.misses + 1 } else c

/-- `recordHit` (only counts when statistics are enabled). -/
def MemoryCache.recordHit (c : MemoryCache) : MemoryCache :=
  if c.config.enableStatistics then { c with hits := c.hits + 1 } else c

/-- `Delete`: remove the entry and deregister it from the policy; reports
whether it existed. -/
def MemoryCache.Delete (c : MemoryCache) (key : Key) : Bool × MemoryCache :=
  if containsKey c.items key then
    (true, { c with items := eraseKey c.items key, policy := c.policy.OnRemove key })
  else (false, c)

/-- `Get`: lazy-expiration check (deleting an expired entry), then access
bookkeeping on the stored item, `policy.OnAccess` and a hit. -/
def MemoryCache.Get (c : MemoryCache) (key : Key) (now : Int) :
    Option String × MemoryCache :=
  match lookupKey c.items key with
  | none => (none, c.recordMiss)
  | some item =>
      if c.config.enableLazyExpiration ∧ item.IsExpired now then
        (none, (c.Delete key).2.recordMiss)
      else
        let item' := { item with accessCount := item.accessCount + 1, lastAccess := now }
        let c1 := { c with items := insertKey c.items key item' }
        (some item.value, MemoryCache.recordHit
          { c1 with policy := c1.policy.OnAccess key })

/-- `Exists`: like `Get`'s lookup and lazy-expiration check, without access
bookkeeping. -/
def MemoryCache.Exists (c : MemoryCache) (key : Key) (now : Int) :
    Bool × MemoryCache :=
  match lookupKey c.items key with
  | none => (false, c)
  | some item =>
      if c.config.enableLazyExpiration ∧ item.IsExpired now then
        (false, (c.Delete key).2)
      else (true, c)

/-- `resetStats`: zero the hit/miss counters. -/
def MemoryCache.resetStats (c : MemoryCache) : MemoryCache :=
  { c with hits := 0, misses := 0 }

/-- `Clear`: replace every shard's `items` map with a fresh empty map and
reset the statistics.  The shard policies are not touched. -/
def MemoryCache.Clear (c : MemoryCache) : MemoryCache :=
  MemoryCache.resetStats { c with items := [] }

/-- `Close`: cancel the cleanup context (not part of the modelled state),
then `Clear`. -/
def MemoryCache.Close (c : MemoryCache) : MemoryCache :=
  c.Clear

/-- `Size`: the total entry count (one shard here). -/
def MemoryCache.Size (c : MemoryCache) : Nat :=
  c.items.length

end ScacheSharded

namespace ScacheLocal

/-! ## The single-map `MemoryCache` of `cache/cache.go` (module `scache`)

Statistics are the four counters of `types.CacheStats`
(hits/misses/sets/deletes). -/

/-- `types.CacheItem` of `types/structures.go`; `expiresAt = none` models the
zero `time.Time`. -/
structure CacheItem where
  key : Key
  value : String
  expiresAt : Option Int
  createdAt : Int
  accessAt : Int
  hits : Int
deriving Repr, DecidableEq

/-- `CacheItem.IsExpired`: a non-zero `ExpiresAt` strictly in the past. -/
def CacheItem.IsExpired (item : CacheItem) (now : Int) : Bool :=
  match item.expiresAt with
  | none => false
  | some t => t < now

/-- The `types.CacheConfig` fields the modelled operations read. -/
structure CacheConfig where
  defaultExpiration : Int
  maxSize : Int
  enableStats : Bool
deriving Repr, DecidableEq

structure MemoryCache where
  items : List (Key × CacheItem)
  config : CacheConfig
  policy : lruPolicy
  hits : Int
  misses : Int
  sets : Int
  deletes : Int
deriving Repr, DecidableEq

/-- `NewCache` with the given configuration: empty map and an
`lru.NewLRUPolicy(config.MaxSize)` policy. -/
def MemoryCache.NewCache (maxSize defaultExpiration : Int) (enableStats : Bool) :
    MemoryCache :=
  { items := []
    config := { defaultExpiration := defaultExpiration, maxSize := maxSize,
                enableStats := enableStats }
    policy := lruPolicy.NewLRUPolicy maxSize
    hits := 0, misses := 0, sets := 0, deletes := 0 }

/-- `evict`: remove the key named by `policy.Evict()` from the map when it is
not `""`. -/
def MemoryCache.evict (c : MemoryCache) : MemoryCache :=
  let p := c.policy.Evict
  let c' := { c with policy := p.1 }
  if p.2 ≠ "" then { c' with items := eraseKey c'.items p.2 } else c'

/-- `Set`: reject the empty key before touching any state; otherwise build
the item (inheriting an overwritten entry's hit count), store it, update the
policy, evict if the map now exceeds `MaxSize`, and count the set. -/
def MemoryCache.Set (c : MemoryCache) (key value : String) (ttl now : Int) :
    Option String × MemoryCache :=
  if key = "" then (some "cache key cannot be empty", c)
  else
    let expiresAt : Option Int :=
      if ttl > 0 then some (now + ttl)
      else if c.config.defaultExpiration > 0 then some (now + c.config.defaultExpiration)
      else none
    let hits := match lookupKey c.items key with
      | some oldItem => oldItem.hits
      | none => 0
    let item : CacheItem :=
      { key := key, value := value, expiresAt := expiresAt,
        createdAt := now, accessAt := now, hits := hits }
    let c1 := { c with items := insertKey c.items key item }
    let c2 := { c1 with policy := c1.policy.Set key }
    let c3 :=
      if c2.config.maxSize > 0 ∧ (c2.items.length : Int) > c2.config.maxSize then
        c2.evict
      else c2
    let c4 := if c3.config.enableStats then { c3 with sets := c3.sets + 1 } else c3
    (none, c4)

/-- `Get`: empty keys and misses return not-found; an expired entry is a miss
(the source schedules its removal with an asynchronous `go c.Delete(key)`,
which is not modelled); otherwise access bookkeeping, `policy.Access` and a
hit. -/
def MemoryCache.Get (c : MemoryCache) (key : Key) (now : Int) :
    Option String × MemoryCache :=
  if key = "" then (none, c)
  else
    match lookupKey c.items key with
    | none =>
        (none, if c.config.enableStats then { c with misses := c.misses + 1 } else c)
    | some item =>
        if item.IsExpired now then
          (none, if c.config.enableStats then { c with misses := c.misses + 1 } else c)
        else
          let item' := { item with accessAt := now, hits := item.hits + 1 }
          let c1 := { c with items := insertKey c.items key item' }
          let c2 := { c1 with policy := c1.policy.Access key }
          (some item.value,
           if c2.config.enableStats then { c2 with hits := c2.hits + 1 } else c2)

/-- `Exists`: membership with the same lazy-expiration check as `Get` (the
asynchronous deletion of an expired entry is not modelled). -/
def MemoryCache.Exists (c : MemoryCache) (key : Key) (now : Int) : Bool :=
  if key = "" then false
  else
    match lookupKey c.items key with
    | none => false
    | some item => ¬ item.IsExpired now

/-- `Delete`: remove the entry, `policy.Delete` it and count the delete;
reports whether it existed. -/
def MemoryCache.Delete (c : MemoryCache) (key : Key) : Bool × MemoryCache :=
  if key = "" then (false, c)
  else if containsKey c.items key then
    let c1 := { c with items := eraseKey c.items key, policy := c.policy.Delete key }
    (true, if c1.config.enableStats then { c1 with deletes := c1.deletes + 1 } else c1)
  else (false, c)

/-- `Flush`: fresh empty map, `policy.Clear()`, and (when statistics are
enabled) reset counters. -/
def MemoryCache.Flush (c : MemoryCache) : MemoryCache :=
  let c1 := { c with items := [], policy := c.policy.Clear }
  if c1.config.enableStats then
    { c1 with hits := 0, misses := 0, sets := 0, deletes := 0 }
  else c1

/-- `Size`: the entry count. -/
def MemoryCache.Size (c : MemoryCache) : Nat :=
  c.items.length

end ScacheLocal

namespace ScacheIO

/-! ## The `StorageEngine` of `storage/engine.go`

`interfaces.DataObject` is modelled by its expiry-relevant surface (a payload
and an `ExpiresAt`); the concrete String/List/Hash object kinds share that
surface.  `Close` closes `stopChan`, which only stops the background cleanup
goroutine; the model records it in a `closed` flag that no data operation
reads, exactly as in the source. -/

/-- A stored data object: opaque payload plus expiry; `expiresAt = none`
models the zero `time.Time`. -/
structure DataObject where
  value : String
  expiresAt : Option Int
deriving Repr, DecidableEq

/-- `DataObject.IsExpired`: a non-zero `ExpiresAt` strictly in the past. -/
def DataObject.IsExpired (o : DataObject) (now : Int) : Bool :=
  match o.expiresAt with
  | none => false
  | some t => t < now

/-- The `EngineConfig` fields the modelled operations read. -/
structure EngineConfig where
  maxSize : Int
  defaultExpiration : Int
deriving Repr, DecidableEq

structure StorageEngine where
  data : List (Key × DataObject)
  policy : lruPolicy
  config : EngineConfig
  hits : Int
  misses : Int
  sets : Int
  deletes : Int
  evictions : Int
  expirations : Int
  /-- Whether `stopChan` has been closed. -/
  closed : Bool
deriving Repr, DecidableEq

/-- `NewStorageEngine`: empty map, `lru.NewLRUPolicy(config.MaxSize)` policy,
zeroed statistics. -/
def StorageEngine.NewStorageEngine (maxSize defaultExpiration : Int) : StorageEngine :=
  { data := []
    policy := lruPolicy.NewLRUPolicy maxSize
    config := { maxSize := maxSize, defaultExpiration := defaultExpiration }
    hits := 0, misses := 0, sets := 0, deletes := 0, evictions := 0,
    expirations := 0, closed := false }

/-- `evictOne`: remove the key named by `policy.Evict()` from the map and
count an eviction when it is not `""`. -/
def StorageEngine.evictOne (e : StorageEngine) : StorageEngine :=
  let p := e.policy.Evict
  let e1 := { e with policy := p.1 }
  if p.2 ≠ "" then
    { e1 with data := eraseKey e1.data p.2, evictions := e1.evictions + 1 }
  else e1

/-- `Set`: reject the empty key; evict one entry first only when a capacity
is configured, the map is full, and the key is absent (`e.data[key] == nil`);
then store, register with the policy, and count the set. -/
def StorageEngine.Set (e : StorageEngine) (key : Key) (obj : DataObject) :
    Option String × StorageEngine :=
  if key = "" then (some "cache key cannot be empty", e)
  else
    let e1 :=
      if e.config.maxSize > 0 ∧ (e.data.length : Int) ≥ e.config.maxSize ∧
          ¬ containsKey e.data key then
        e.evictOne
      else e
    let e2 := { e1 with data := insertKey e1.data key obj, policy := e1.policy.Set key }
    (none, { e2 with sets := e2.sets + 1 })

/-- `Get`: empty keys and misses return not-found; an expired entry is a miss
plus an expiration count (the source's asynchronous `go e.Delete(key)` is not
modelled); otherwise `policy.Access` and a hit. -/
def StorageEngine.Get (e : StorageEngine) (key : Key) (now : Int) :
    Option DataObject × StorageEngine :=
  if key = "" then (none, e)
  else
    match lookupKey e.data key with
    | none => (none, { e with misses := e.misses + 1 })
    | some obj =>
        if obj.IsExpired now then
          (none, { e with misses := e.misses + 1, expirations := e.expirations + 1 })
        else
          (some obj, { e with policy := e.policy.Access key, hits := e.hits + 1 })

/-- `Delete`: remove the entry, `policy.Delete` it and count the delete;
reports whether it existed. -/
def StorageEngine.Delete (e : StorageEngine) (key : Key) : Bool × StorageEngine :=
  if key = "" then (false, e)
  else if containsKey e.data key then
    (true, { e with data := eraseKey e.data key, policy := e.policy.Delete key,
                    deletes := e.deletes + 1 })
  else (false, e)

/-- `Exists`: membership with the lazy-expiration check (the asynchronous
deletion of an expired entry is not modelled). -/
def StorageEngine.Exists (e : StorageEngine) (key : Key) (now : Int) : Bool :=
  if key = "" then false
  else
    match lookupKey e.data key with
    | none => false
    | some obj => ¬ obj.IsExpired now

/-- `Flush`: fresh empty map, `policy.Clear()` and zeroed counters. -/
def StorageEngine.Flush (e : StorageEngine) : StorageEngine :=
  { e with data := [], policy := e.policy.Clear,
           hits := 0, misses := 0, sets := 0, deletes := 0, evictions := 0,
           expirations := 0 }

/-- `Size`: the entry count. -/
def StorageEngine.Size (e : StorageEngine) : Nat :=
  e.data.length

/-- `TTL`: `(-1, false)` for a missing key; `(-1, true)` for a never-expiring
entry; otherwise the remaining `time.Until(ExpiresAt)`, clamped to `0` when
the entry has already expired. -/
def StorageEngine.TTL (e : StorageEngine) (key : Key) (now : Int) : Int × Bool :=
  match lookupKey e.data key with
  | none => (-1, false)
  | some obj =>
      match obj.expiresAt with
      | none => (-1, true)
      | some t =>
          let remaining := t - now
          if remaining ≤ 0 then (0, true) else (remaining, true)

/-- `Close`: close `stopChan`, stopping the background cleanup goroutine; no
other state is touched. -/
def StorageEngine.Close (e : StorageEngine) : StorageEngine :=
  { e with closed := true }

end ScacheIO

/-! ## Operation sequences used by the claims -/

/-- One `set` call on the sharded engine: key, value, ttl, and the clock
reading. -/
abbrev SetCall := Key × String × Int × Int

/-- Run a sequence of `SetWithTTL` calls on the sharded engine. -/
def runSets (c : ScacheSharded.MemoryCache) : List SetCall → ScacheSharded.MemoryCache
  | [] => c
  | (k, v, ttl, now) :: rest => runSets (c.SetWithTTL k v ttl now).2 rest

/-- One call of the common eviction-policy contract. -/
inductive PolicyOp where
  | onAdd (k : Key)
  | onAccess (k : Key)
  | onRemove (k : Key)
  | setMaxSize (n : Int)
  | clear
deriving Repr, DecidableEq

/-- A `SetMaxSize` argument must be non-negative: with a negative capacity
the Go eviction loops of all three policies never terminate once the tracked
set is empty. -/
def PolicyOp.valid : PolicyOp → Bool
  | .setMaxSize n => decide (0 ≤ n)
  | _ => true

/-- All capacity arguments in the sequence are non-negative. -/
def validOps (ops : List PolicyOp) : Bool :=
  ops.all PolicyOp.valid

/-- Dispatch one contract call on `LRUPolicy`. -/
def LRUPolicy.applyOp (s : LRUPolicy) : PolicyOp → LRUPolicy
  | .onAdd k => LRUPolicy.OnAdd k s
  | .onAccess k => LRUPolicy.OnAccess k s
  | .onRemove k => LRUPolicy.OnRemove k s
  | .setMaxSize n => LRUPolicy.SetMaxSize n s
  | .clear => LRUPolicy.Clear s

/-- Run a sequence of contract calls on `LRUPolicy`. -/
def LRUPolicy.runOps (s : LRUPolicy) : List PolicyOp → LRUPolicy
  | [] => s
  | op :: rest => LRUPolicy.runOps (s.applyOp op) rest

/-- Dispatch one contract call on `LFUPolicy`. -/
def LFUPolicy.applyOp (s : LFUPolicy) : PolicyOp → LFUPolicy
  | .onAdd k => LFUPolicy.OnAdd k s
  | .onAccess k => LFUPolicy.OnAccess k s
  | .onRemove k => LFUPolicy.OnRemove k s
  | .setMaxSize n => LFUPolicy.SetMaxSize n s
  | .clear => LFUPolicy.Clear s

/-- Run a sequence of contract calls on `LFUPolicy`. -/
def LFUPolicy.runOps (s : LFUPolicy) : List PolicyOp → LFUPolicy
  | [] => s
  | op :: rest => LFUPolicy.runOps (s.applyOp op) rest

/-- Dispatch one contract call on `FIFOPolicy` (`none` models the `OnRemove`
panic described at `FIFOPolicy.OnRemove`). -/
def FIFOPolicy.applyOp (s : FIFOPolicy) : PolicyOp → Option FIFOPolicy
  | .onAdd k => some (FIFOPolicy.OnAdd k s)
  | .onAccess k => some (FIFOPolicy.OnAccess k s)
  | .onRemove k => FIFOPolicy.OnRemove k s
  | .setMaxSize n => some (FIFOPolicy.SetMaxSize n s)
  | .clear => some (FIFOPolicy.Clear s)

/-- Run a sequence of contract calls on `FIFOPolicy`, stopping at a panic. -/
def FIFOPolicy.runOps (s : FIFOPolicy) : List PolicyOp → Option FIFOPolicy
  | [] => some s
  | op :: rest =>
      match s.applyOp op with
      | none => none
      | some s' => FIFOPolicy.runOps s' rest

/-! ## Concrete scenario states used by several claims -/

/-- The §8 LRU-order scenario on the sharded engine (one shard, `maxSize 2`,
`lru` policy): `set x`, `set y`, `get x`, `set z`. -/
def lruScenarioSharded : ScacheSharded.MemoryCache :=
  (((((ScacheSharded.MemoryCache.NewSingleShard 2).SetWithTTL "x" "1" 0 0).2.SetWithTTL
      "y" "2" 0 1).2.Get "x" 2).2.SetWithTTL "z" "3" 0 3).2

/-- The same §8 LRU-order scenario on `cache/cache.go`'s `MemoryCache`
(`maxSize 2`, no default expiration, statistics on). -/
def lruScenarioLocal : ScacheLocal.MemoryCache :=
  (((((ScacheLocal.MemoryCache.NewCache 2 0 true).Set "x" "1" 0 0).2.Set
      "y" "2" 0 1).2.Get "x" 2).2.Set "z" "3" 0 3).2

/-- A single-shard engine (`maxSize 2`) holding `a`, then cleared. -/
def clearScenario : ScacheSharded.MemoryCache :=
  (((ScacheSharded.MemoryCache.NewSingleShard 2).SetWithTTL "a" "1" 0 0).2).Clear

/-- A single-shard engine (`maxSize 2`) holding `a` and `b`. -/
def fullShardScenario : ScacheSharded.MemoryCache :=
  (((ScacheSharded.MemoryCache.NewSingleShard 2).SetWithTTL "a" "1" 0 0).2.SetWithTTL
    "b" "2" 0 1).2

/-- `fullShardScenario` after a `set` that overwrites the already-present
key `b`. -/
def overwriteScenario : ScacheSharded.MemoryCache :=
  (fullShardScenario.SetWithTTL "b" "3" 0 2).2

/-- The call sequence used by the C10 witness. -/
def c10WitnessOps : List PolicyOp :=
  [.onAdd "a", .onAdd "b", .onAccess "a", .onAdd "c", .onRemove "b",
   .setMaxSize 1, .onAdd "d", .clear, .onAdd "e"]

/-- The engine used by the C9 witness: one never-expiring entry `a` and one
entry `b` expiring at time 10. -/
def ttlWitnessEngine : ScacheIO.StorageEngine :=
  { ScacheIO.StorageEngine.NewStorageEngine 0 0 with
    data := [("a", { value := "v", expiresAt := none }),
             ("b", { value := "w", expiresAt := some 10 })] }

/-- The invariant carried through claim C2's induction over `set` calls on a
single-shard engine with `maxSize = N`: the configuration is fixed, the
policy capacity equals `N`, the entry map and the policy track exactly the
same keys without duplicates, and the shard holds at most `N` entries. -/
structure ShardInv (N : Int) (c : ScacheSharded.MemoryCache) : Prop where
  cfg_max : c.config.maxSize = N
  cfg_shards : c.config.shards = 1
  cap : c.policy.capacity = N
  nodup_items : (keysOf c.items).Nodup
  nodup_order : c.policy.order.Nodup
  same : ∀ k, k ∈ keysOf c.items ↔ k ∈ c.policy.order
  size_le : (c.items.length : Int) ≤ N

/-! ## Length lemmas for the policy structures -/

theorem length_lfuSwap (l : List LFUNode) (i j : Nat) :
    (lfuSwap l i j).length = l.length := by
  unfold lfuSwap
  rcases h1 : l.get? i with _ | a <;> rcases h2 : l.get? j with _ | b <;> simp

theorem length_heapUp (fuel : Nat) :
    ∀ (l : List LFUNode) (j : Nat), (heapUp fuel l j).length = l.length := by
  induction fuel with
  | zero => intro l j; rfl
  | succ n ih =>
      intro l j
      unfold heapUp
      by_cases hj : j = 0
      · simp [hj]
      · by_cases hl : lfuLess l j ((j - 1) / 2)
        · simp [hj, hl, ih, length_lfuSwap]
        · simp [hj, hl]

theorem length_heapDown (fuel : Nat) :
    ∀ (l : List LFUNode) (i n : Nat), ((heapDown fuel l i n).1).length = l.length := by
  induction fuel with
  | zero => intro l i n; rfl
  | succ f ih =>
      intro l i n
      unfold heapDown
      dsimp only
      by_cases h1 : 2 * i + 1 < n
      · by_cases h2 : lfuLess l (if 2 * i + 1 + 1 < n ∧ lfuLess l (2 * i + 1 + 1) (2 * i + 1)
            then 2 * i + 1 + 1 else 2 * i + 1) i
        · simp [h1, h2, ih, length_lfuSwap]
        · simp [h1, h2]
      · simp [h1]

theorem length_heapPush (l : List LFUNode) (x : LFUNode) :
    (heapPush l x).length = l.length + 1 := by
  simp [heapPush, length_heapUp]

theorem length_heapPop_fst (l : List LFUNode) :
    ((heapPop l).1).length = l.length - 1 := by
  simp [heapPop, List.length_dropLast, length_heapDown, length_lfuSwap]

theorem length_heapFix (l : List LFUNode) (i : Nat) :
    (heapFix l i).length = l.length := by
  unfold heapFix
  dsimp only
  split <;> simp [length_heapUp, length_heapDown]

theorem length_heapRemove (l : List LFUNode) (i : Nat) :
    (heapRemove l i).length = l.length - 1 := by
  unfold heapRemove
  dsimp only
  split
  · split <;> simp [List.length_dropLast, length_heapUp, length_heapDown, length_lfuSwap]
  · simp [List.length_dropLast]

/-! ## Capacity invariants of the three policies (claim C10) -/

theorem LRUPolicy.length_moveToFront {k : Key} {l : List Key} (h : k ∈ l) :
    (LRUPolicy.moveToFront k l).length = l.length := by
  have hpos : 0 < l.length := List.length_pos_of_mem h
  simp only [LRUPolicy.moveToFront, List.length_cons, List.length_erase_of_mem h]
  omega

theorem LRUPolicy.setMaxSizeLoop_lru_inv (fuel : Nat) :
    ∀ (s : LRUPolicy), 0 ≤ s.capacity → s.order.length ≤ fuel →
      (LRUPolicy.SetMaxSizeLoop fuel s).capacity = s.capacity ∧
      ((LRUPolicy.SetMaxSizeLoop fuel s).Len : Int) ≤ s.capacity := by
  induction fuel with
  | zero =>
      intro s hcap hfuel
      have h0 : s.order.length = 0 := Nat.le_zero.mp hfuel
      refine ⟨rfl, ?_⟩
      simp only [LRUPolicy.SetMaxSizeLoop, LRUPolicy.Len, h0]
      omega
  | succ f ih =>
      intro s hcap hfuel
      unfold LRUPolicy.SetMaxSizeLoop
      by_cases hgt : (s.order.length : Int) > s.capacity
      · have hne : s.order ≠ [] := by
          intro h0
          rw [h0] at hgt
          simp only [List.length_nil, Nat.cast_zero] at hgt
          omega
        have hp : 0 < s.order.length := List.length_pos.mpr hne
        have hlen : s.removeOldest.order.length ≤ f := by
          simp only [LRUPolicy.removeOldest, List.length_dropLast]
          omega
        have hres := ih s.removeOldest hcap hlen
        rw [if_pos hgt, if_neg hne]
        exact hres
      · rw [if_neg hgt]
        refine ⟨rfl, ?_⟩
        simp only [LRUPolicy.Len]
        omega

theorem LRUPolicy.applyOp_lru_inv {s : LRUPolicy} {op : PolicyOp}
    (hcap : 0 ≤ s.capacity) (hlen : (s.Len : Int) ≤ s.capacity)
    (hop : op.valid = true) :
    0 ≤ (s.applyOp op).capacity ∧
      ((s.applyOp op).Len : Int) ≤ (s.applyOp op).capacity := by
  cases op with
  | onAdd k =>
      simp only [LRUPolicy.applyOp]
      unfold LRUPolicy.OnAdd
      by_cases hk : k ∈ s.order
      · rw [if_pos hk]
        refine ⟨hcap, ?_⟩
        simp only [LRUPolicy.Len] at *
        rw [LRUPolicy.length_moveToFront hk]
        exact hlen
      · rw [if_neg hk]
        dsimp only
        split
        · refine ⟨hcap, ?_⟩
          simp only [LRUPolicy.Len, LRUPolicy.removeOldest, List.length_dropLast,
            List.length_cons] at *
          omega
        · refine ⟨hcap, ?_⟩
          simp only [LRUPolicy.Len, List.length_cons] at *
          rename_i hover
          omega
  | onAccess k =>
      simp only [LRUPolicy.applyOp]
      unfold LRUPolicy.OnAccess
      by_cases hk : k ∈ s.order
      · rw [if_pos hk]
        refine ⟨hcap, ?_⟩
        simp only [LRUPolicy.Len] at *
        rw [LRUPolicy.length_moveToFront hk]
        exact hlen
      · rw [if_neg hk]
        exact ⟨hcap, hlen⟩
  | onRemove k =>
      simp only [LRUPolicy.applyOp]
      unfold LRUPolicy.OnRemove
      by_cases hk : k ∈ s.order
      · rw [if_pos hk]
        refine ⟨hcap, ?_⟩
        have herase := List.length_erase_le k s.order
        simp only [LRUPolicy.Len] at *
        omega
      · rw [if_neg hk]
        exact ⟨hcap, hlen⟩
  | setMaxSize n =>
      have hn : 0 ≤ n := by simpa [PolicyOp.valid] using hop
      simp only [LRUPolicy.applyOp]
      unfold LRUPolicy.SetMaxSize
      have h := LRUPolicy.setMaxSizeLoop_lru_inv s.order.length
        { s with capacity := n } hn (le_refl _)
      exact ⟨by rw [h.1]; exact hn, by rw [h.1]; exact h.2⟩
  | clear =>
      refine ⟨hcap, ?_⟩
      simp only [LRUPolicy.applyOp, LRUPolicy.Clear, LRUPolicy.Len, List.length_nil]
      omega

theorem LRUPolicy.runOps_lru_inv {s : LRUPolicy} {ops : List PolicyOp}
    (hcap : 0 ≤ s.capacity) (hlen : (s.Len : Int) ≤ s.capacity)
    (hops : validOps ops = true) :
    0 ≤ (LRUPolicy.runOps s ops).capacity ∧
      ((LRUPolicy.runOps s ops).Len : Int) ≤ (LRUPolicy.runOps s ops).capacity := by
  induction ops generalizing s with
  | nil => exact ⟨hcap, hlen⟩
  | cons op rest ih =>
      simp only [validOps, List.all_cons, Bool.and_eq_true] at hops
      have hstep := LRUPolicy.applyOp_lru_inv hcap hlen hops.1
      exact ih hstep.1 hstep.2 hops.2

theorem LFUPolicy.setMaxSizeLoop_lfu_inv (fuel : Nat) :
    ∀ (s : LFUPolicy), 0 ≤ s.capacity → s.heap.length ≤ fuel →
      (LFUPolicy.SetMaxSizeLoop fuel s).capacity = s.capacity ∧
      ((LFUPolicy.SetMaxSizeLoop fuel s).Len : Int) ≤ s.capacity := by
  induction fuel with
  | zero =>
      intro s hcap hfuel
      have h0 : s.heap.length = 0 := Nat.le_zero.mp hfuel
      refine ⟨rfl, ?_⟩
      simp only [LFUPolicy.SetMaxSizeLoop, LFUPolicy.Len, h0]
      omega
  | succ f ih =>
      intro s hcap hfuel
      unfold LFUPolicy.SetMaxSizeLoop
      by_cases hgt : (s.heap.length : Int) > s.capacity
      · have hne : s.heap ≠ [] := by
          intro h0
          rw [h0] at hgt
          simp only [List.length_nil, Nat.cast_zero] at hgt
          omega
        have hp : 0 < s.heap.length := List.length_pos.mpr hne
        have hrm : s.removeLowestFrequency =
            { s with heap := (heapPop s.heap).1 } := by
          simp [LFUPolicy.removeLowestFrequency, hp]
        have hlen : s.removeLowestFrequency.heap.length ≤ f := by
          rw [hrm]
          simp only [length_heapPop_fst]
          omega
        have hcap' : 0 ≤ s.removeLowestFrequency.capacity := by rw [hrm]; exact hcap
        have hres := ih s.removeLowestFrequency hcap' hlen
        have hc : s.removeLowestFrequency.capacity = s.capacity := by rw [hrm]
        rw [hc] at hres
        rw [if_pos hgt, if_neg hne]
        exact hres
      · rw [if_neg hgt]
        refine ⟨rfl, ?_⟩
        simp only [LFUPolicy.Len]
        omega

theorem LFUPolicy.applyOp_lfu_inv {s : LFUPolicy} {op : PolicyOp}
    (hcap : 0 ≤ s.capacity) (hlen : (s.Len : Int) ≤ s.capacity)
    (hop : op.valid = true) :
    0 ≤ (s.applyOp op).capacity ∧
      ((s.applyOp op).Len : Int) ≤ (s.applyOp op).capacity := by
  cases op with
  | onAdd k =>
      simp only [LFUPolicy.applyOp]
      unfold LFUPolicy.OnAdd
      by_cases hk : (s.indexOfKey k).isSome
      · rw [if_pos hk]
        exact ⟨hcap, hlen⟩
      · rw [if_neg hk]
        dsimp only
        split
        · rename_i hover
          unfold LFUPolicy.removeLowestFrequency
          dsimp only
          split
          · rename_i hp2
            refine ⟨hcap, ?_⟩
            simp only [LFUPolicy.Len, length_heapPop_fst, length_heapPush] at *
            omega
          · rename_i hp2
            exfalso
            rw [length_heapPush] at hp2
            omega
        · rename_i hover
          refine ⟨hcap, ?_⟩
          simp only [LFUPolicy.Len, length_heapPush] at *
          omega
  | onAccess k =>
      simp only [LFUPolicy.applyOp]
      unfold LFUPolicy.OnAccess
      rcases hi : s.indexOfKey k with _ | i
      · exact ⟨hcap, hlen⟩
      · dsimp only
        rcases hg : s.heap.get? i with _ | node
        · exact ⟨hcap, hlen⟩
        · refine ⟨hcap, ?_⟩
          dsimp only
          simp only [LFUPolicy.Len, length_heapFix, List.length_set] at *
          exact hlen
  | onRemove k =>
      simp only [LFUPolicy.applyOp]
      unfold LFUPolicy.OnRemove
      rcases hi : s.indexOfKey k with _ | i
      · exact ⟨hcap, hlen⟩
      · refine ⟨hcap, ?_⟩
        dsimp only
        simp only [LFUPolicy.Len, length_heapRemove] at *
        omega
  | setMaxSize n =>
      have hn : 0 ≤ n := by simpa [PolicyOp.valid] using hop
      simp only [LFUPolicy.applyOp]
      unfold LFUPolicy.SetMaxSize
      have h := LFUPolicy.setMaxSizeLoop_lfu_inv s.heap.length
        { s with capacity := n } hn (le_refl _)
      exact ⟨by rw [h.1]; exact hn, by rw [h.1]; exact h.2⟩
  | clear =>
      refine ⟨hcap, ?_⟩
      simp only [LFUPolicy.applyOp, LFUPolicy.Clear, LFUPolicy.Len, List.length_nil]
      omega

theorem LFUPolicy.runOps_lfu_inv {s : LFUPolicy} {ops : List PolicyOp}
    (hcap : 0 ≤ s.capacity) (hlen : (s.Len : Int) ≤ s.capacity)
    (hops : validOps ops = true) :
    0 ≤ (LFUPolicy.runOps s ops).capacity ∧
      ((LFUPolicy.runOps s ops).Len : Int) ≤ (LFUPolicy.runOps s ops).capacity := by
  induction ops generalizing s with
  | nil => exact ⟨hcap, hlen⟩
  | cons op rest ih =>
      simp only [validOps, List.all_cons, Bool.and_eq_true] at hops
      have hstep := LFUPolicy.applyOp_lfu_inv hcap hlen hops.1
      exact ih hstep.1 hstep.2 hops.2

theorem FIFOPolicy.setMaxSizeLoop_fifo_inv (fuel : Nat) :
    ∀ (s : FIFOPolicy), 0 ≤ s.capacity → s.queue.length ≤ fuel →
      (FIFOPolicy.SetMaxSizeLoop fuel s).capacity = s.capacity ∧
      ((FIFOPolicy.SetMaxSizeLoop fuel s).Len : Int) ≤ s.capacity := by
  induction fuel with
  | zero =>
      intro s hcap hfuel
      have h0 : s.queue.length = 0 := Nat.le_zero.mp hfuel
      refine ⟨rfl, ?_⟩
      simp only [FIFOPolicy.SetMaxSizeLoop, FIFOPolicy.Len, h0]
      omega
  | succ f ih =>
      intro s hcap hfuel
      unfold FIFOPolicy.SetMaxSizeLoop
      by_cases hgt : (s.queue.length : Int) > s.capacity
      · have hne : s.queue ≠ [] := by
          intro h0
          rw [h0] at hgt
          simp only [List.length_nil, Nat.cast_zero] at hgt
          omega
        obtain ⟨oldest, rest, hq⟩ : ∃ a l, s.queue = a :: l := by
          cases hq : s.queue with
          | nil => exact absurd hq hne
          | cons a l => exact ⟨a, l, rfl⟩
        have hro : s.removeOldest =
            { s with queue := rest, items := eraseKey s.items oldest } := by
          simp [FIFOPolicy.removeOldest, hq]
        have hlen : s.removeOldest.queue.length ≤ f := by
          rw [hro]
          have hq1 : s.queue.length = rest.length + 1 := by rw [hq]; rfl
          show rest.length ≤ f
          omega
        have hcap' : 0 ≤ s.removeOldest.capacity := by rw [hro]; exact hcap
        have hres := ih s.removeOldest hcap' hlen
        have hc : s.removeOldest.capacity = s.capacity := by rw [hro]
        rw [hc] at hres
        rw [if_pos hgt, if_neg hne]
        exact hres
      · rw [if_neg hgt]
        refine ⟨rfl, ?_⟩
        simp only [FIFOPolicy.Len]
        omega

theorem FIFOPolicy.applyOp_fifo_inv {s s' : FIFOPolicy} {op : PolicyOp}
    (hcap : 0 ≤ s.capacity) (hlen : (s.Len : Int) ≤ s.capacity)
    (hop : op.valid = true) (happ : s.applyOp op = some s') :
    0 ≤ s'.capacity ∧ (s'.Len : Int) ≤ s'.capacity := by
  cases op with
  | onAdd k =>
      obtain rfl : FIFOPolicy.OnAdd k s = s' := by
        simpa [FIFOPolicy.applyOp] using happ
      unfold FIFOPolicy.OnAdd
      by_cases hk : containsKey s.items k
      · rw [if_pos hk]
        exact ⟨hcap, hlen⟩
      · rw [if_neg (by simp [hk])]
        dsimp only
        split
        · rename_i hover
          unfold FIFOPolicy.removeOldest
          dsimp only
          split
          · rename_i hemp
            exact absurd (congrArg List.length hemp) (by simp)
          · rename_i a l hq
            refine ⟨hcap, ?_⟩
            have hql : s.queue.length + 1 = l.length + 1 + 0 := by
              have := congrArg List.length hq
              simpa using this
            simp only [FIFOPolicy.Len] at *
            simp only [List.length_append, List.length_cons, List.length_nil] at hover
            omega
        · rename_i hover
          refine ⟨hcap, ?_⟩
          simp only [FIFOPolicy.Len, List.length_append, List.length_cons,
            List.length_nil] at *
          omega
  | onAccess k =>
      obtain rfl : FIFOPolicy.OnAccess k s = s' := by
        simpa [FIFOPolicy.applyOp] using happ
      exact ⟨hcap, hlen⟩
  | onRemove k =>
      have h2 : FIFOPolicy.OnRemove k s = some s' := by
        simpa [FIFOPolicy.applyOp] using happ
      unfold FIFOPolicy.OnRemove at h2
      rcases hi : lookupKey s.items k with _ | index
      · rw [hi] at h2
        obtain rfl : s = s' := by simpa using h2
        exact ⟨hcap, hlen⟩
      · rw [hi] at h2
        dsimp only at h2
        by_cases hidx : index < s.queue.length
        · rw [if_pos hidx] at h2
          obtain rfl := Option.some.inj h2
          refine ⟨hcap, ?_⟩
          simp only [FIFOPolicy.Len, List.length_append, List.length_take,
            List.length_drop] at *
          omega
        · rw [if_neg hidx] at h2
          exact absurd h2 (by simp)
  | setMaxSize n =>
      have hn : 0 ≤ n := by simpa [PolicyOp.valid] using hop
      obtain rfl : FIFOPolicy.SetMaxSize n s = s' := by
        simpa [FIFOPolicy.applyOp] using happ
      unfold FIFOPolicy.SetMaxSize
      have h := FIFOPolicy.setMaxSizeLoop_fifo_inv s.queue.length
        { s with capacity := n } hn (le_refl _)
      exact ⟨by rw [h.1]; exact hn, by rw [h.1]; exact h.2⟩
  | clear =>
      obtain rfl : FIFOPolicy.Clear s = s' := by
        simpa [FIFOPolicy.applyOp] using happ
      refine ⟨hcap, ?_⟩
      simp only [FIFOPolicy.Clear, FIFOPolicy.Len, List.length_nil]
      omega

theorem FIFOPolicy.runOps_fifo_inv {s : FIFOPolicy} {ops : List PolicyOp}
    (hcap : 0 ≤ s.capacity) (hlen : (s.Len : Int) ≤ s.capacity)
    (hops : validOps ops = true) :
    ∀ s', FIFOPolicy.runOps s ops = some s' →
      0 ≤ s'.capacity ∧ (s'.Len : Int) ≤ s'.capacity := by
  induction ops generalizing s with
  | nil =>
      intro s' h
      obtain rfl : s = s' := by simpa [FIFOPolicy.runOps] using h
      exact ⟨hcap, hlen⟩
  | cons op rest ih =>
      intro s' h
      simp only [validOps, List.all_cons, Bool.and_eq_true] at hops
      unfold FIFOPolicy.runOps at h
      rcases happ : s.applyOp op with _ | s₁
      · rw [happ] at h
        exact absurd h (by simp)
      · rw [happ] at h
        have hstep := FIFOPolicy.applyOp_fifo_inv hcap hlen hops.1 happ
        exact ih hstep.1 hstep.2 hops.2 s' h


/-! ## Claim C10 -/

/-- C10: for every eviction-policy variant (LRU, LFU, FIFO) constructed with
capacity `n ≥ 0`, after any sequence of `OnAdd`, `OnAccess`, `OnRemove`,
`SetMaxSize` and `Clear` calls (every `SetMaxSize` argument non-negative —
with a negative capacity the Go eviction loops do not terminate), the number
of tracked keys never exceeds the current capacity; for `FIFOPolicy` this
covers every completed (non-panicking) run. -/
theorem C10_policy_len_le_capacity (n : Int) (ops : List PolicyOp)
    (hn : 0 ≤ n) (hops : validOps ops = true) :
    (((LRUPolicy.runOps (LRUPolicy.NewLRUPolicy n) ops).Len : Int)
      ≤ (LRUPolicy.runOps (LRUPolicy.NewLRUPolicy n) ops).capacity)
    ∧ (((LFUPolicy.runOps (LFUPolicy.NewLFUPolicy n) ops).Len : Int)
      ≤ (LFUPolicy.runOps (LFUPolicy.NewLFUPolicy n) ops).capacity)
    ∧ (∀ s', FIFOPolicy.runOps (FIFOPolicy.NewFIFOPolicy n) ops = some s' →
        (s'.Len : Int) ≤ s'.capacity) := by
  refine ⟨?_, ?_, fun s' h => ?_⟩
  · exact (LRUPolicy.runOps_lru_inv hn
      (by simpa [LRUPolicy.NewLRUPolicy, LRUPolicy.Len] using hn) hops).2
  · exact (LFUPolicy.runOps_lfu_inv hn
      (by simpa [LFUPolicy.NewLFUPolicy, LFUPolicy.Len] using hn) hops).2
  · exact (FIFOPolicy.runOps_fifo_inv hn
      (by simpa [FIFOPolicy.NewFIFOPolicy, FIFOPolicy.Len] using hn) hops s' h).2

/-- Witness for C10 at capacity 2 and the sequence `c10WitnessOps`. -/
theorem C10_policy_len_le_capacity_witness :
    ((LRUPolicy.runOps (LRUPolicy.NewLRUPolicy 2) c10WitnessOps).Len : Int)
      ≤ (LRUPolicy.runOps (LRUPolicy.NewLRUPolicy 2) c10WitnessOps).capacity :=
  (C10_policy_len_le_capacity 2 c10WitnessOps (by decide) (by decide)).1

/-! ## Association-list lemmas for the capacity invariant (claim C2) -/

theorem lookupKey_isSome_iff {α : Type} (l : List (Key × α)) (k : Key) :
    (lookupKey l k).isSome = true ↔ k ∈ keysOf l := by
  induction l with
  | nil => simp [lookupKey, keysOf]
  | cons p rest ih =>
      obtain ⟨k', v⟩ := p
      by_cases h : k' = k
      · subst h
        simp [lookupKey, keysOf]
      · simp only [lookupKey, keysOf, List.map_cons, List.mem_cons, h, if_false]
        rw [show (keysOf rest = rest.map Prod.fst) from rfl] at ih
        rw [ih]
        constructor
        · exact Or.inr
        · rintro (rfl | hm)
          · exact absurd rfl h
          · exact hm

theorem containsKey_iff_mem {α : Type} (l : List (Key × α)) (k : Key) :
    containsKey l k = true ↔ k ∈ keysOf l := by
  unfold containsKey
  exact lookupKey_isSome_iff l k

theorem keysOf_insertKey {α : Type} (l : List (Key × α)) (k : Key) (v : α) :
    keysOf (insertKey l k v)
      = if k ∈ keysOf l then keysOf l else keysOf l ++ [k] := by
  induction l with
  | nil => simp [insertKey, keysOf]
  | cons p rest ih =>
      obtain ⟨k', v'⟩ := p
      by_cases h : k' = k
      · subst h
        simp [insertKey, keysOf]
      · simp only [insertKey, h, if_false, keysOf, List.map_cons]
        rw [show (keysOf (insertKey rest k v) = (insertKey rest k v).map Prod.fst)
          from rfl] at ih
        rw [ih]
        by_cases hm : k ∈ keysOf rest
        · rw [if_pos hm, if_pos (by simp [keysOf] at hm ⊢; exact Or.inr hm)]
          rfl
        · rw [if_neg hm,
            if_neg (by
              simp only [List.mem_cons]
              rintro (rfl | hmem)
              · exact h rfl
              · exact hm (by simpa [keysOf] using hmem))]
          simp [keysOf]

theorem keysOf_eraseKey {α : Type} (l : List (Key × α)) (k : Key) :
    keysOf (eraseKey l k) = (keysOf l).erase k := by
  induction l with
  | nil => simp [eraseKey, keysOf]
  | cons p rest ih =>
      obtain ⟨k', v'⟩ := p
      by_cases h : k' = k
      · subst h
        simp [eraseKey, keysOf, List.erase_cons_head]
      · simp only [eraseKey, h, if_false, keysOf, List.map_cons]
        rw [List.erase_cons_tail (by simpa using h)]
        rw [show (keysOf (eraseKey rest k) = (eraseKey rest k).map Prod.fst)
          from rfl] at ih
        rw [ih]
        rfl

theorem length_eq_length_keysOf {α : Type} (l : List (Key × α)) :
    l.length = (keysOf l).length := by
  simp [keysOf]

theorem length_eq_of_nodup_mem_iff {l₁ l₂ : List Key}
    (h₁ : l₁.Nodup) (h₂ : l₂.Nodup) (h : ∀ k, k ∈ l₁ ↔ k ∈ l₂) :
    l₁.length = l₂.length :=
  ((List.perm_ext_iff_of_nodup h₁ h₂).mpr h).length_eq

theorem length_insertKey {α : Type} (l : List (Key × α)) (k : Key) (v : α) :
    (insertKey l k v).length
      = if k ∈ keysOf l then l.length else l.length + 1 := by
  rw [length_eq_length_keysOf, keysOf_insertKey]
  split
  · exact (length_eq_length_keysOf l).symm
  · rw [List.length_append, ← length_eq_length_keysOf]
    rfl

theorem length_eraseKey_of_mem {α : Type} {l : List (Key × α)} {k : Key}
    (h : k ∈ keysOf l) :
    (eraseKey l k).length = l.length - 1 := by
  rw [length_eq_length_keysOf, keysOf_eraseKey, List.length_erase_of_mem h,
    ← length_eq_length_keysOf]

/-! ## Structural lemmas about `LRUPolicy` (claim C2) -/

theorem LRUPolicy.capacity_OnAdd (k : Key) (s : LRUPolicy) :
    (LRUPolicy.OnAdd k s).capacity = s.capacity := by
  unfold LRUPolicy.OnAdd
  split
  · rfl
  · dsimp only
    split <;> rfl

theorem LRUPolicy.capacity_OnRemove (k : Key) (s : LRUPolicy) :
    (LRUPolicy.OnRemove k s).capacity = s.capacity := by
  unfold LRUPolicy.OnRemove
  split <;> rfl

theorem LRUPolicy.OnRemove_order_of_mem {k : Key} {s : LRUPolicy}
    (h : k ∈ s.order) :
    (LRUPolicy.OnRemove k s).order = s.order.erase k := by
  unfold LRUPolicy.OnRemove
  rw [if_pos h]

theorem LRUPolicy.OnAdd_order_of_not_mem {k : Key} {s : LRUPolicy}
    (h : k ∉ s.order) (hsmall : (s.order.length : Int) + 1 ≤ s.capacity) :
    (LRUPolicy.OnAdd k s).order = k :: s.order := by
  unfold LRUPolicy.OnAdd
  rw [if_neg h]
  dsimp only
  rw [if_neg (by simp only [List.length_cons]; push_cast; omega)]

theorem LRUPolicy.ShouldEvict_of_full {s : LRUPolicy}
    (hfull : (s.order.length : Int) ≥ s.capacity) (hne : s.order ≠ []) :
    ∃ ek, s.ShouldEvict = some ek ∧ ek ∈ s.order := by
  unfold LRUPolicy.ShouldEvict
  rw [if_pos hfull]
  obtain ⟨ek, hek⟩ := Option.isSome_iff_exists.mp (List.getLast?_isSome.mpr hne)
  refine ⟨ek, hek, ?_⟩
  obtain ⟨hne', rfl⟩ :=
    List.mem_getLast?_eq_getLast (l := s.order) (x := ek) (Option.mem_def.mpr hek)
  exact List.getLast_mem hne'

/-! ## The capacity invariant of the single-shard engine (claim C2) -/

theorem ShardInv_init {N : Int} (hN : 0 < N) :
    ShardInv N (ScacheSharded.MemoryCache.NewSingleShard N) := by
  have hv : ScacheSharded.validateMaxSize N = N := by
    unfold ScacheSharded.validateMaxSize
    rw [if_neg (by omega)]
  unfold ScacheSharded.MemoryCache.NewSingleShard
  dsimp only
  refine ⟨hv, rfl, ?_, by simp [keysOf], by simp [LRUPolicy.NewLRUPolicy],
    by simp [keysOf, LRUPolicy.NewLRUPolicy], by simp; omega⟩
  simp [LRUPolicy.NewLRUPolicy, hv]

theorem insertStage_inv {N : Int} {c1 : ScacheSharded.MemoryCache}
    (hmax : c1.config.maxSize = N) (hshards : c1.config.shards = 1)
    (hcap : c1.policy.capacity = N) (hnd1 : (keysOf c1.items).Nodup)
    (hnd2 : c1.policy.order.Nodup)
    (hsame : ∀ k, k ∈ keysOf c1.items ↔ k ∈ c1.policy.order)
    (hlt : (c1.items.length : Int) < N)
    (key : Key) (item : ScacheSharded.CacheItem) :
    ShardInv N
      (let c2 := if containsKey c1.items key
        then { c1 with policy := c1.policy.OnRemove key } else c1
       { c2 with items := insertKey c2.items key item,
                 policy := c2.policy.OnAdd key }) := by
  have hleneq : (keysOf c1.items).length = c1.policy.order.length :=
    length_eq_of_nodup_mem_iff hnd1 hnd2 hsame
  have hlen_items : c1.items.length = (keysOf c1.items).length :=
    length_eq_length_keysOf _
  dsimp only
  by_cases hkey : containsKey c1.items key
  · rw [if_pos hkey]
    have hkmem : key ∈ keysOf c1.items := (containsKey_iff_mem _ _).mp hkey
    have hkord : key ∈ c1.policy.order := (hsame key).mp hkmem
    have hopos : 0 < c1.policy.order.length := List.length_pos_of_mem hkord
    have hrm : (c1.policy.OnRemove key).order = c1.policy.order.erase key :=
      LRUPolicy.OnRemove_order_of_mem hkord
    have hnotmem : key ∉ (c1.policy.OnRemove key).order := by
      rw [hrm]
      exact hnd2.not_mem_erase
    have herase_len : (c1.policy.order.erase key).length
        = c1.policy.order.length - 1 := List.length_erase_of_mem hkord
    have hsmall : (((c1.policy.OnRemove key).order.length : Int) + 1
        ≤ (c1.policy.OnRemove key).capacity) := by
      rw [hrm, herase_len, LRUPolicy.capacity_OnRemove, hcap]
      omega
    have hadd : ((c1.policy.OnRemove key).OnAdd key).order
        = key :: (c1.policy.OnRemove key).order :=
      LRUPolicy.OnAdd_order_of_not_mem hnotmem hsmall
    refine ⟨hmax, hshards, ?_, ?_, ?_, ?_, ?_⟩
    · rw [LRUPolicy.capacity_OnAdd, LRUPolicy.capacity_OnRemove]
      exact hcap
    · rw [keysOf_insertKey, if_pos hkmem]
      exact hnd1
    · rw [hadd, hrm]
      exact List.Nodup.cons hnd2.not_mem_erase (hnd2.erase key)
    · intro m
      rw [keysOf_insertKey, if_pos hkmem, hadd, hrm]
      simp only [List.mem_cons, hnd2.mem_erase_iff]
      rw [hsame m]
      by_cases hm : m = key
      · subst hm
        simp [hkord]
      · simp [hm]
    · rw [length_insertKey, if_pos hkmem]
      dsimp only
      omega
  · rw [if_neg hkey]
    have hkmem : key ∉ keysOf c1.items := fun hm =>
      hkey ((containsKey_iff_mem _ _).mpr hm)
    have hkord : key ∉ c1.policy.order := fun hm => hkmem ((hsame key).mpr hm)
    have hsmall : ((c1.policy.order.length : Int) + 1 ≤ c1.policy.capacity) := by
      rw [hcap]
      omega
    have hadd : (c1.policy.OnAdd key).order = key :: c1.policy.order :=
      LRUPolicy.OnAdd_order_of_not_mem hkord hsmall
    refine ⟨hmax, hshards, ?_, ?_, ?_, ?_, ?_⟩
    · rw [LRUPolicy.capacity_OnAdd]
      exact hcap
    · rw [keysOf_insertKey, if_neg hkmem]
      simp [List.nodup_append, hkmem, hnd1]
    · rw [hadd]
      exact List.Nodup.cons hkord hnd2
    · intro m
      rw [keysOf_insertKey, if_neg hkmem, hadd]
      simp only [List.mem_append, List.mem_cons, List.mem_singleton,
        List.not_mem_nil, or_false]
      rw [hsame m]
      tauto
    · rw [length_insertKey, if_neg hkmem]
      push_cast
      omega

theorem SetWithTTL_inv {N : Int} {c : ScacheSharded.MemoryCache} (hN : 0 < N)
    (hinv : ShardInv N c) (key value : String) (ttl now : Int) :
    ShardInv N (c.SetWithTTL key value ttl now).2 := by
  obtain ⟨hmax, hshards, hcap, hnd1, hnd2, hsame, hsize⟩ := hinv
  have hdiv : c.config.maxSize / c.config.shards = N := by
    rw [hmax, hshards]
    simp
  have hleneq : (keysOf c.items).length = c.policy.order.length :=
    length_eq_of_nodup_mem_iff hnd1 hnd2 hsame
  have hlen_items : c.items.length = (keysOf c.items).length :=
    length_eq_length_keysOf _
  unfold ScacheSharded.MemoryCache.SetWithTTL
  dsimp only
  rw [hdiv]
  by_cases hfull : (c.items.length : Int) ≥ N
  · rw [if_pos hfull]
    have hfull' : (c.policy.order.length : Int) ≥ c.policy.capacity := by
      rw [hcap]
      omega
    have hne : c.policy.order ≠ [] := by
      intro h0
      rw [h0] at hleneq
      simp only [List.length_nil] at hleneq
      omega
    obtain ⟨ek, hev, hekmem⟩ := LRUPolicy.ShouldEvict_of_full hfull' hne
    rw [hev]
    dsimp only
    have hekitems : ek ∈ keysOf c.items := (hsame ek).mpr hekmem
    have hepos : 0 < (keysOf c.items).length := List.length_pos_of_mem hekitems
    refine @insertStage_inv N
      { c with items := eraseKey c.items ek, policy := c.policy.OnRemove ek }
      hmax hshards ?_ ?_ ?_ ?_ ?_ key _
    · show (c.policy.OnRemove ek).capacity = N
      rw [LRUPolicy.capacity_OnRemove]
      exact hcap
    · show (keysOf (eraseKey c.items ek)).Nodup
      rw [keysOf_eraseKey]
      exact hnd1.erase ek
    · show ((c.policy.OnRemove ek).order).Nodup
      rw [LRUPolicy.OnRemove_order_of_mem hekmem]
      exact hnd2.erase ek
    · intro m
      show m ∈ keysOf (eraseKey c.items ek) ↔ m ∈ (c.policy.OnRemove ek).order
      rw [keysOf_eraseKey, LRUPolicy.OnRemove_order_of_mem hekmem,
        hnd1.mem_erase_iff, hnd2.mem_erase_iff, hsame m]
    · show (((eraseKey c.items ek).length : Int) < N)
      rw [length_eraseKey_of_mem hekitems]
      omega
  · rw [if_neg hfull]
    exact insertStage_inv hmax hshards hcap hnd1 hnd2 hsame (by omega) key _

theorem runSets_inv {N : Int} (hN : 0 < N) {c : ScacheSharded.MemoryCache}
    (hinv : ShardInv N c) (ops : List SetCall) :
    ShardInv N (runSets c ops) := by
  induction ops generalizing c with
  | nil => exact hinv
  | cons op rest ih =>
      obtain ⟨k, v, ttl, now⟩ := op
      exact ih (SetWithTTL_inv hN hinv k v ttl now)

/-! ## Claim C2 -/

/-- C2: for every sequence of `set` calls on a single-shard engine configured
with `maxSize = N` (`N > 0`), after each call the engine's size is at most
`N` (stated for the final state; every intermediate state is the final state
of the corresponding prefix of calls). -/
theorem C2_capacity_invariant (N : Int) (hN : 0 < N) (ops : List SetCall) :
    ((runSets (ScacheSharded.MemoryCache.NewSingleShard N) ops).Size : Int) ≤ N :=
  (runSets_inv hN (ShardInv_init hN) ops).size_le

/-- Witness for C2 at `N = 2` and a sequence of four `set` calls that
overflows the capacity twice. -/
theorem C2_capacity_invariant_witness :
    ((runSets (ScacheSharded.MemoryCache.NewSingleShard 2)
        [("a", "1", 0, 0), ("b", "2", 0, 1), ("c", "3", 0, 2),
         ("b", "4", 0, 3)]).Size : Int) ≤ 2 :=
  C2_capacity_invariant 2 (by decide)
    [("a", "1", 0, 0), ("b", "2", 0, 1), ("c", "3", 0, 2), ("b", "4", 0, 3)]

/-! ## Claim C1 -/

/-- C1 (amended): on the sharded engine with a single shard, capacity 2 and
the `lru` policy, the sequence `set x`, `set y`, `get x`, `set z` evicts `y`
and leaves `x` and `z` present. -/
theorem C1_sharded_lru_order :
    (lruScenarioSharded.Exists "y" 4).1 = false
    ∧ (lruScenarioSharded.Exists "x" 4).1 = true
    ∧ (lruScenarioSharded.Exists "z" 4).1 = true := by
  decide

/-- Counterexample to C1 as stated: on `cache/cache.go`'s `MemoryCache` with
`maxSize 2`, the same sequence leaves `y` present and evicts `x` instead
(the policy's internal capacity eviction removes `y` from the policy only,
and the engine-level eviction then removes the recently used `x`). -/
theorem C1_counterexample_local_engine :
    lruScenarioLocal.Exists "y" 4 = true
    ∧ lruScenarioLocal.Exists "x" 4 = false
    ∧ lruScenarioLocal.Exists "z" 4 = true := by
  decide

/-! ## Claim C3 -/

/-- C3: the lockstep invariant fails after `Clear`.  On a single-shard
engine holding `a`, `Clear` empties the entry map but the policy still
tracks `a` (`Clear` never calls `policy.Clear()`), so the policy's tracked
key set differs from the entry map's key set after a completed mutating
operation. -/
theorem C3_clear_breaks_lockstep :
    keysOf clearScenario.items = [] ∧ clearScenario.policy.order = ["a"] := by
  decide

/-! ## Claim C4 -/

/-- C4: `flush` does not leave the policy state empty.  After `set a; Clear`
on a single-shard engine, the entry map is empty and the hit/miss counters
are zeroed, but the eviction policy still tracks one key. -/
theorem C4_clear_leaves_policy_nonempty :
    clearScenario.Size = 0 ∧ clearScenario.hits = 0 ∧ clearScenario.misses = 0
    ∧ clearScenario.policy.Len = 1 := by
  decide

/-! ## Claim C5 -/

/-- C5 (amended): on the `StorageEngine`, `Close` only stops the background
cleanup goroutine: the stored data and policy are unchanged, and `Get`,
`TTL` and `Exists` observe exactly the data present before the close. -/
theorem C5_close_preserves_engine_data (e : ScacheIO.StorageEngine) :
    e.Close.data = e.data ∧ e.Close.policy = e.policy
    ∧ (∀ k now, (e.Close.Get k now).1 = (e.Get k now).1)
    ∧ (∀ k now, e.Close.TTL k now = e.TTL k now)
    ∧ (∀ k now, e.Close.Exists k now = e.Exists k now) := by
  obtain ⟨d, p, cfg, h, m, s, del, ev, ex, cl⟩ := e
  refine ⟨rfl, rfl, fun k now => ?_, fun k now => rfl, fun k now => rfl⟩
  unfold ScacheIO.StorageEngine.Close ScacheIO.StorageEngine.Get
  dsimp only
  by_cases hk : k = ""
  · simp [hk]
  · simp only [hk, if_false]
    cases lookupKey d k with
    | none => rfl
    | some obj =>
        by_cases he : obj.IsExpired now
        · simp [he]
        · simp [he]

/-- Counterexample to C5 as stated: the sharded `MemoryCache.Close` calls
`Clear`, so a cache holding two entries is empty after `Close` — the data
does not survive the close on that engine. -/
theorem C5_counterexample_sharded_close :
    fullShardScenario.Size = 2 ∧ fullShardScenario.Close.Size = 0 := by
  decide

/-! ## Claim C6 -/

/-- C6 (amended): on `cache/cache.go`'s `MemoryCache`, `Set` returns an
error exactly when the key is the empty string, and that failure leaves the
cache state unchanged (every non-empty key succeeds). -/
theorem C6_local_set_rejects_empty_key (c : ScacheLocal.MemoryCache)
    (k v : String) (ttl now : Int) :
    ((c.Set k v ttl now).1.isSome ↔ k = "")
    ∧ (k = "" → (c.Set k v ttl now).2 = c) := by
  constructor
  · by_cases h : k = "" <;> simp [ScacheLocal.MemoryCache.Set, h]
  · intro h
    simp [ScacheLocal.MemoryCache.Set, h]

/-- Witness for C6 at a concrete cache and the empty key. -/
theorem C6_local_set_rejects_empty_key_witness :
    (((ScacheLocal.MemoryCache.NewCache 2 0 true).Set "" "v" 0 0).1.isSome ↔ ("" : String) = "")
    ∧ (("" : String) = "" →
        ((ScacheLocal.MemoryCache.NewCache 2 0 true).Set "" "v" 0 0).2
          = ScacheLocal.MemoryCache.NewCache 2 0 true) :=
  C6_local_set_rejects_empty_key (ScacheLocal.MemoryCache.NewCache 2 0 true) "" "v" 0 0

/-- Counterexample to C6 as stated: the sharded engine's `SetWithTTL`
performs no key validation — a `set` of the empty key returns no error and
stores the entry. -/
theorem C6_counterexample_sharded_empty_key :
    ((ScacheSharded.MemoryCache.NewSingleShard 2).SetWithTTL "" "v" 0 0).1 = none
    ∧ (((ScacheSharded.MemoryCache.NewSingleShard 2).SetWithTTL "" "v" 0 0).2.Exists
        "" 1).1 = true := by
  decide

/-! ## Claim C7 -/

/-- C7: on the sharded engine, a `set` of the already-present key `b` in a
shard at its local capacity evicts the other entry `a` — `SetWithTTL` asks
the policy for an eviction candidate whenever the shard is full, without
checking whether the key is new. -/
theorem C7_overwrite_evicts_other_key :
    containsKey fullShardScenario.items "a" = true
    ∧ containsKey fullShardScenario.items "b" = true
    ∧ containsKey overwriteScenario.items "b" = true
    ∧ containsKey overwriteScenario.items "a" = false := by
  decide

/-! ## Claim C8 -/

/-- C8 (amended): for the `OnAccess`/`OnRemove`-style policies (`LRUPolicy`,
`LFUPolicy`, `FIFOPolicy`), `OnAccess` and `OnRemove` on an untracked key
leave the policy unchanged and never panic; for the `Access`-style
`lruPolicy` the same holds of `Delete`, while `Access` on an untracked key
inserts it (see the counterexample). -/
theorem C8_untracked_keys_are_noops
    (k : Key) (s2 : LRUPolicy) (s3 : LFUPolicy) (s4 : FIFOPolicy) (s1 : lruPolicy)
    (h2 : k ∉ s2.order) (h3 : s3.indexOfKey k = none)
    (h4 : lookupKey s4.items k = none) (h1 : k ∉ s1.order) :
    LRUPolicy.OnAccess k s2 = s2 ∧ LRUPolicy.OnRemove k s2 = s2
    ∧ LFUPolicy.OnAccess k s3 = s3 ∧ LFUPolicy.OnRemove k s3 = s3
    ∧ FIFOPolicy.OnAccess k s4 = s4 ∧ FIFOPolicy.OnRemove k s4 = some s4
    ∧ lruPolicy.Delete k s1 = s1 := by
  refine ⟨?_, ?_, ?_, ?_, ?_, ?_, ?_⟩ <;>
    simp [LRUPolicy.OnAccess, LRUPolicy.OnRemove, LFUPolicy.OnAccess,
      LFUPolicy.OnRemove, FIFOPolicy.OnAccess, FIFOPolicy.OnRemove,
      lruPolicy.Delete, h1, h2, h3, h4]

/-- Witness for C8 at the key `a` and freshly constructed policies. -/
theorem C8_untracked_keys_are_noops_witness :
    LRUPolicy.OnAccess "a" (LRUPolicy.NewLRUPolicy 2) = LRUPolicy.NewLRUPolicy 2
    ∧ LRUPolicy.OnRemove "a" (LRUPolicy.NewLRUPolicy 2) = LRUPolicy.NewLRUPolicy 2
    ∧ LFUPolicy.OnAccess "a" (LFUPolicy.NewLFUPolicy 2) = LFUPolicy.NewLFUPolicy 2
    ∧ LFUPolicy.OnRemove "a" (LFUPolicy.NewLFUPolicy 2) = LFUPolicy.NewLFUPolicy 2
    ∧ FIFOPolicy.OnAccess "a" (FIFOPolicy.NewFIFOPolicy 2) = FIFOPolicy.NewFIFOPolicy 2
    ∧ FIFOPolicy.OnRemove "a" (FIFOPolicy.NewFIFOPolicy 2)
        = some (FIFOPolicy.NewFIFOPolicy 2)
    ∧ lruPolicy.Delete "a" (lruPolicy.NewLRUPolicy 2) = lruPolicy.NewLRUPolicy 2 :=
  C8_untracked_keys_are_noops "a" (LRUPolicy.NewLRUPolicy 2) (LFUPolicy.NewLFUPolicy 2)
    (FIFOPolicy.NewFIFOPolicy 2) (lruPolicy.NewLRUPolicy 2)
    (by decide) (by decide) (by decide) (by decide)

/-- Counterexample to C8 as stated: `lruPolicy.Access` on an untracked key
changes the tracked key set — it registers the key. -/
theorem C8_counterexample_access_inserts :
    lruPolicy.Contains "a" (lruPolicy.NewLRUPolicy 2) = false
    ∧ lruPolicy.Contains "a" (lruPolicy.Access "a" (lruPolicy.NewLRUPolicy 2)) = true := by
  decide

/-! ## Claim C9 -/

/-- C9: for a key present in the engine, `TTL` reports found; it returns the
sentinel `-1` when the entry never expires, and otherwise the remaining
duration, which is non-negative — exactly `0` for an entry whose expiry has
already passed (or is now), and `expiresAt - now` for a live entry. -/
theorem C9_ttl_semantics (e : ScacheIO.StorageEngine) (k : Key) (now : Int)
    (obj : ScacheIO.DataObject) (h : lookupKey e.data k = some obj) :
    (e.TTL k now).2 = true
    ∧ (obj.expiresAt = none → (e.TTL k now).1 = -1)
    ∧ (∀ t, obj.expiresAt = some t →
        0 ≤ (e.TTL k now).1
        ∧ (t ≤ now → (e.TTL k now).1 = 0)
        ∧ (now < t → (e.TTL k now).1 = t - now)) := by
  obtain ⟨val, exp⟩ := obj
  unfold ScacheIO.StorageEngine.TTL
  rw [h]
  rcases exp with _ | t
  · exact ⟨rfl, fun _ => rfl, fun t ht => Option.noConfusion ht⟩
  · refine ⟨?_, ?_, ?_⟩
    · dsimp only
      split <;> rfl
    · intro hnone
      exact Option.noConfusion hnone
    · intro t' ht'
      obtain rfl : t = t' := by injection ht'
      dsimp only
      refine ⟨?_, fun hle => ?_, fun hlt => ?_⟩
      · split <;> omega
      · split
        · rfl
        · omega
      · split
        · omega
        · rfl

/-- Witness for C9 at the entry `b` of `ttlWitnessEngine` and time 3. -/
theorem C9_ttl_semantics_witness :
    (ttlWitnessEngine.TTL "b" 3).2 = true
    ∧ (({ value := "w", expiresAt := some 10 } : ScacheIO.DataObject).expiresAt = none →
        (ttlWitnessEngine.TTL "b" 3).1 = -1)
    ∧ (∀ t, ({ value := "w", expiresAt := some 10 } : ScacheIO.DataObject).expiresAt = some t →
        0 ≤ (ttlWitnessEngine.TTL "b" 3).1
        ∧ (t ≤ 3 → (ttlWitnessEngine.TTL "b" 3).1 = 0)
        ∧ (3 < t → (ttlWitnessEngine.TTL "b" 3).1 = t - 3)) :=
  C9_ttl_semantics ttlWitnessEngine "b" 3 { value := "w", expiresAt := some 10 } (by decide)

end SCache
